/-
Verification of the InfiniTTT game engine against its specification.

The development shallowly embeds the C++ sources: the sparse board
(`std::map<std::pair<int,int>,char>`) becomes a sorted association list over
`Int × Int`, the per-agent move frontier (`std::set<std::pair<int,int>>`)
becomes a sorted duplicate-free list, and the evaluator / search / trainer
functions become pure Lean functions that thread the mutated state
explicitly.  Machine `int` values are modelled by `Int` (no overflow occurs
for the quantities considered here), and the `double` arithmetic of
`EvaluationWeights::mutate` is modelled over `ℚ`.
-/
import Mathlib

namespace InfiniTTT


/-- Integer board coordinate, mirroring `std::pair<int,int>`. -/
abbrev Pos := Int × Int

/-- Strict lexicographic order on coordinates, mirroring `operator<` of
`std::pair<int,int>` (the key order of `std::map` and `std::set`). -/
def posLt (p q : Pos) : Prop :=
  p.1 < q.1 ∨ (p.1 = q.1 ∧ p.2 < q.2)

instance (p q : Pos) : Decidable (posLt p q) := by
  unfold posLt; infer_instance

/-! ### The sparse board

`TicTacToeBoard` stores `std::map<std::pair<int,int>, char> board` — a
mapping sorted by key with unique keys.  We model the map as an association
list; the operations below keep a `posLt`-sorted list sorted, exactly as the
`std::map` operations do. -/

/-- The occupant mapping of a board (the `board` member of `TicTacToeBoard`). -/
abbrev Board := List (Pos × Char)

/-- Key lookup in the occupant mapping (`board.count` / `board.at`). -/
def lookupCell : Board → Pos → Option Char
  | [], _ => none
  | (q, m) :: t, p => if p = q then some m else lookupCell t p

/-- `TicTacToeBoard::isPositionOccupied(x, y)`: `board.count({x, y}) > 0`. -/
def isPositionOccupied (b : Board) (p : Pos) : Bool :=
  (lookupCell b p).isSome

/-- `TicTacToeBoard::placeMarkDirect(x, y, mark)`: `board[{x, y}] = mark`,
the insert-or-assign of `std::map::operator[]`. -/
def placeMarkDirect (p : Pos) (c : Char) : Board → Board
  | [] => [(p, c)]
  | (q, m) :: t =>
    if posLt p q then (p, c) :: (q, m) :: t
    else if p = q then (p, c) :: t
    else (q, m) :: placeMarkDirect p c t

/-- `TicTacToeBoard::removeMarkDirect(x, y)`: `board.erase({x, y})`. -/
def removeMarkDirect (p : Pos) : Board → Board
  | [] => []
  | (q, m) :: t => if p = q then t else (q, m) :: removeMarkDirect p t

/-! ### The move frontier

The per-agent `std::set<std::pair<int,int>> availableMoves`: a sorted
duplicate-free list of coordinates.  `msInsert` is `set::insert` (no-op on a
present element), `msErase` is `set::erase`. -/

/-- A `std::set<std::pair<int,int>>` of candidate moves. -/
abbrev MoveSet := List Pos

/-- `std::set::insert`: keeps a sorted set sorted, no-op if present. -/
def msInsert (p : Pos) : MoveSet → MoveSet
  | [] => [p]
  | q :: t =>
    if posLt p q then p :: q :: t
    else if p = q then q :: t
    else q :: msInsert p t

/-- `std::set::erase` by value. -/
def msErase (p : Pos) : MoveSet → MoveSet
  | [] => []
  | q :: t => if p = q then t else q :: msErase p t

/-- The eight neighbours of `(x, y)` in the C++ iteration order of
`for i in x-1..x+1, for j in y-1..y+1` with the centre skipped. -/
def neighborList (x y : Int) : List Pos :=
  [(x - 1, y - 1), (x - 1, y), (x - 1, y + 1),
   (x, y - 1), (x, y + 1),
   (x + 1, y - 1), (x + 1, y), (x + 1, y + 1)]

/-- Loop body sequence of `HybridEvaluatorAIv2::addAdjacentMoves`: inserts
the empty, absent neighbours and records exactly the cells it inserted. -/
def addAux (b : Board) : List Pos → MoveSet → MoveSet × List Pos
  | [], ms => (ms, [])
  | p :: rest, ms =>
    if isPositionOccupied b p = false ∧ p ∉ ms then
      let r := addAux b rest (msInsert p ms)
      (r.1, p :: r.2)
    else addAux b rest ms

/-- `HybridEvaluatorAIv2::addAdjacentMoves(moves, board, x, y)`: returns the
grown move set together with the list of added positions (the C++ function
mutates `moves` and returns the added vector). -/
def addAdjacentMoves (moves : MoveSet) (b : Board) (x y : Int) :
    MoveSet × List Pos :=
  addAux b (neighborList x y) moves

/-! ### The full board object (occupant mapping plus turn tracking) -/

/-- The `TicTacToeBoard` class: the sparse occupant mapping together with the
`currentPlayer` member (initialised to `'X'`). -/
structure TicTacToeBoard where
  board : Board
  currentPlayer : Char

/-- `TicTacToeBoard::placeMark(x, y)`: refuses an occupied cell; otherwise
stores the current player's mark and swaps `currentPlayer` between
`'X'` and `'O'`. -/
def placeMark (st : TicTacToeBoard) (x y : Int) : Bool × TicTacToeBoard :=
  if isPositionOccupied st.board (x, y) then
    (false, st)
  else
    (true,
      { board := placeMarkDirect (x, y) st.currentPlayer st.board
        currentPlayer := if st.currentPlayer = 'X' then 'O' else 'X' })

/-! ### Evaluation weights

`EvaluationWeights` (evaluationweights.h): six `int` parameters.  The
persisted file format is one decimal integer per line; since `std::stoi`
inverts the decimal rendering, a line is modelled by the integer it holds,
and a readable file by `some lines`. -/

structure EvaluationWeights where
  four_open : Int
  four_blocked : Int
  three_open : Int
  three_blocked : Int
  two_open : Int
  double_threat : Int
deriving DecidableEq, Repr

/-- The hand-tuned default weights of `EvaluationWeights`. -/
def defaultWeights : EvaluationWeights :=
  { four_open := 500, four_blocked := 200, three_open := 50
    three_blocked := 20, two_open := 5, double_threat := 10000 }

/-- `EvaluationWeights::saveToFile`: writes the six fields, one integer per
line, in the fixed order. -/
def saveToFile (w : EvaluationWeights) : List Int :=
  [w.four_open, w.four_blocked, w.three_open, w.three_blocked, w.two_open, w.double_threat]

/-- One `if (std::getline(file, line)) field = std::stoi(line);` step: reads
the next line if present, otherwise keeps the field's previous value. -/
def readLine : List Int → Int → Int × List Int
  | [], d => (d, [])
  | v :: t, _ => (v, t)

/-- `EvaluationWeights::loadFromFile`: `none` models an unopenable file
(returns `false`); otherwise the six fields are read sequentially, each kept
at its previous value when its line is missing, and the call returns `true`
(`file.good() || file.eof()` holds after reading integer lines). -/
def loadFromFile (file : Option (List Int)) (w : EvaluationWeights) :
    Bool × EvaluationWeights :=
  match file with
  | none => (false, w)
  | some lines =>
    let r1 := readLine lines w.four_open
    let r2 := readLine r1.2 w.four_blocked
    let r3 := readLine r2.2 w.three_open
    let r4 := readLine r3.2 w.three_blocked
    let r5 := readLine r4.2 w.two_open
    let r6 := readLine r5.2 w.double_threat
    (true,
      { four_open := r1.1, four_blocked := r2.1, three_open := r3.1
        three_blocked := r4.1, two_open := r5.1, double_threat := r6.1 })

/-- Truncation toward zero, the behaviour of `static_cast<int>` on `double`. -/
def truncQ (q : ℚ) : Int :=
  if 0 ≤ q then ⌊q⌋ else ⌈q⌉

/-- The `mutateValue` lambda of `EvaluationWeights::mutate`: perturbs a value
by a relative change in `[-rate, rate)` derived from one `rand()` draw and
floors the result at 1 (`std::max(1, newValue)`). -/
def mutateValue (rate : ℚ) (draw : Nat) (value : Int) : Int :=
  let change : ℚ := (((draw % 100 : Nat) : ℚ) / 100 - 1/2) * 2 * rate
  max 1 (truncQ ((value : ℚ) * (1 + change)))

/-- `EvaluationWeights::mutate(mutationRate)`: each field independently
perturbed; `draws` supplies the six `rand()` results. -/
def mutate (w : EvaluationWeights) (rate : ℚ) (draws : Fin 6 → Nat) :
    EvaluationWeights :=
  { four_open := mutateValue rate (draws 0) w.four_open
    four_blocked := mutateValue rate (draws 1) w.four_blocked
    three_open := mutateValue rate (draws 2) w.three_open
    three_blocked := mutateValue rate (draws 3) w.three_blocked
    two_open := mutateValue rate (draws 4) w.two_open
    double_threat := mutateValue rate (draws 5) w.double_threat }

/-! ### The windowed evaluator (HybridEvaluatorAIv2)

Both `evaluatePositionFull` and `evaluatePositionIncremental` analyse 5-cell
windows with the identical code block; `windowEval` is that shared block.
Windows are deduplicated by a canonical key (the two endpoint coordinates,
smaller first under `operator<`). -/

/-- The four scan directions: horizontal, vertical, the two diagonals. -/
def dirList : List Pos := [(1, 0), (0, 1), (1, 1), (1, -1)]

/-- The window offsets `0..4` of the C++ inner loops. -/
def offsets : List Int := [0, 1, 2, 3, 4]

/-- `char opponent = (mark == 'X') ? 'O' : 'X'`. -/
def oppositeOf (mark : Char) : Char := if mark = 'X' then 'O' else 'X'

/-- The five cells of the window starting at `s` with direction `d`. -/
def windowCells (s d : Pos) : List Pos :=
  offsets.map (fun k => (s.1 + k * d.1, s.2 + k * d.2))

/-- Canonical window key: the pair of endpoints, lexicographically smaller
endpoint first. -/
def canonKey (s d : Pos) : Pos × Pos :=
  let e : Pos := (s.1 + 4 * d.1, s.2 + 4 * d.2)
  if posLt s e then (s, e) else (e, s)

/-- The per-window analysis shared by `evaluatePositionFull` and
`evaluatePositionIncremental`: counts friendly / opposing / empty cells,
skips windows containing an opposing mark or fewer than two friendly marks,
checks the two outer ends, and returns the window's score together with the
empty cells of a 4-friendly window (the candidate winning moves). -/
def windowEval (b : Board) (s d : Pos) (evalMark : Char)
    (w : EvaluationWeights) : Int × List Pos :=
  let cells := windowCells s d
  let friendlyCount := cells.countP (fun c => decide (lookupCell b c = some evalMark))
  let opponentCount := cells.countP (fun c =>
    match lookupCell b c with
    | some m => decide (m ≠ evalMark)
    | none => false)
  let emptyCount := cells.countP (fun c => (lookupCell b c).isNone)
  if 0 < opponentCount then (0, [])
  else if friendlyCount < 2 then (0, [])
  else
    let opponent := oppositeOf evalMark
    let beforeCell : Pos := (s.1 - d.1, s.2 - d.2)
    let afterCell : Pos := (s.1 + 5 * d.1, s.2 + 5 * d.2)
    let openBefore :=
      match lookupCell b beforeCell with
      | none => true
      | some m => decide (m ≠ opponent)
    let openAfter :=
      match lookupCell b afterCell with
      | none => true
      | some m => decide (m ≠ opponent)
    if friendlyCount = 4 then
      ((if openBefore && openAfter then w.four_open else w.four_blocked),
        cells.filter (fun c => (lookupCell b c).isNone))
    else if friendlyCount = 3 then
      ((if emptyCount = 2 then
          (if openBefore && openAfter then w.three_open else w.three_blocked)
        else 0), [])
    else if friendlyCount = 2 then
      ((if emptyCount = 3 then
          (if openBefore && openAfter then w.two_open else 0)
        else 0), [])
    else (0, [])

/-- The twenty candidate windows through `(mx, my)` in the C++ traversal
order: direction outer, offset inner, window start `move - offset * dir`. -/
def windowsThrough (mx my : Int) : List (Pos × Pos) :=
  dirList.flatMap (fun d => offsets.map
    (fun o => (((mx - o * d.1 : Int), (my - o * d.2 : Int)), d)))

/-- Loop kernel of `evaluatePositionIncremental`: scores each window once,
skipping windows whose canonical key was already counted.  (The C++ loop
also accumulates the winning-move cells, but the incremental evaluator never
uses them — the double-threat bonus is deliberately omitted there.) -/
def incAux (b : Board) (evalMark : Char) (w : EvaluationWeights) :
    List (Pos × Pos) → List (Pos × Pos) → Int
  | [], _ => 0
  | sd :: rest, counted =>
    let key := canonKey sd.1 sd.2
    if key ∈ counted then incAux b evalMark w rest counted
    else (windowEval b sd.1 sd.2 evalMark w).1 +
      incAux b evalMark w rest (key :: counted)

/-- `HybridEvaluatorAIv2::evaluatePositionIncremental(board, moveX, moveY,
evalMark)`: sums the scores of the deduplicated windows through the move. -/
def evaluatePositionIncremental (b : Board) (mx my : Int) (evalMark : Char)
    (w : EvaluationWeights) : Int :=
  incAux b evalMark w (windowsThrough mx my) []

/-- `HybridEvaluatorAIv2::calculateScoreDelta(board, moveX, moveY, moveMark,
evalMark)` together with its net effect on the board: score the area, place
the move, score again, erase the cell.  (On an unoccupied cell the erase
restores the board; on an occupied cell it removes the existing mark — the
state component records exactly what the C++ mutation sequence leaves.) -/
def calculateScoreDeltaSt (b : Board) (mx my : Int) (moveMark evalMark : Char)
    (w : EvaluationWeights) : Int × Board :=
  let scoreBefore := evaluatePositionIncremental b mx my evalMark w
  let b1 := placeMarkDirect (mx, my) moveMark b
  let scoreAfter := evaluatePositionIncremental b1 mx my evalMark w
  (scoreAfter - scoreBefore, removeMarkDirect (mx, my) b1)

/-- The returned value of `calculateScoreDelta`. -/
def calculateScoreDelta (b : Board) (mx my : Int) (moveMark evalMark : Char)
    (w : EvaluationWeights) : Int :=
  (calculateScoreDeltaSt b mx my moveMark evalMark w).1

/-- Loop kernel of `evaluatePositionFull`: deduplicated window scores plus
the accumulated set of winning-move cells of 4-friendly windows. -/
def fullAux (b : Board) (evalMark : Char) (w : EvaluationWeights) :
    List (Pos × Pos) → List (Pos × Pos) → MoveSet → Int × MoveSet
  | [], _, winSet => (0, winSet)
  | sd :: rest, counted, winSet =>
    let key := canonKey sd.1 sd.2
    if key ∈ counted then fullAux b evalMark w rest counted winSet
    else
      let r := windowEval b sd.1 sd.2 evalMark w
      let winSet1 := r.2.foldl (fun s c => msInsert c s) winSet
      let res := fullAux b evalMark w rest (key :: counted) winSet1
      (r.1 + res.1, res.2)

/-- `HybridEvaluatorAIv2::evaluatePositionFull(board, mark)`: for every
occupied cell of `mark`, every direction and every offset, scores the
(deduplicated) windows, and adds the double-threat bonus once when at least
two distinct winning-move cells were collected. -/
def evaluatePositionFull (b : Board) (mark : Char) (w : EvaluationWeights) : Int :=
  let anchors := (b.filter (fun e => decide (e.2 = mark))).map (fun e => e.1)
  let windows := anchors.flatMap (fun p => dirList.flatMap (fun d => offsets.map
    (fun o => (((p.1 - o * d.1 : Int), (p.2 - o * d.2 : Int)), d))))
  let r := fullAux b mark w windows [] []
  r.1 + (if 2 ≤ r.2.length then w.double_threat else 0)

/-- Formalisation of the specification's reference quantity for C2: the
full evaluator's per-window scores (`windowEval`, the identical window
analysis `evaluatePositionFull` performs) summed over the 5-cell windows
that pass through `(mx, my)` — each distinct window counted once, see
`windowsThrough_keys_nodup` — after placing `moveMark` at `(mx, my)` minus
before, with the double-threat bonus term excluded. -/
def specRestrictedFullDelta (b : Board) (mx my : Int) (moveMark evalMark : Char)
    (w : EvaluationWeights) : Int :=
  ((windowsThrough mx my).map
    (fun sd => (windowEval (placeMarkDirect (mx, my) moveMark b) sd.1 sd.2 evalMark w).1)).sum
  - ((windowsThrough mx my).map
    (fun sd => (windowEval b sd.1 sd.2 evalMark w).1)).sum

/-! ### Win detection and the minimax search engine (HybridEvaluatorAIv2) -/

/-- The `while` body of `TicTacToeBoard::countConsecutive` (the board
implementation embedded in src/README.md): starting from `p`, step by `d`
and count while the next cell holds `mark`.  The C++ loop is unbounded; each
successful step reads a distinct occupied cell, so it runs at most
`board.size()` iterations — the fuel `b.length` passed by
`countConsecutive` makes the capped count equal to the loop's count. -/
def countConsecutiveAux (b : Board) (d : Pos) (mark : Char) : Pos → Nat → Nat
  | _, 0 => 0
  | p, fuel + 1 =>
    let q : Pos := (p.1 + d.1, p.2 + d.2)
    if lookupCell b q = some mark then 1 + countConsecutiveAux b d mark q fuel else 0

/-- `TicTacToeBoard::countConsecutive(x, y, dx, dy, mark)`: the number of
consecutive cells holding `mark` starting at `(x+dx, y+dy)` and stepping by
`(dx, dy)`. -/
def countConsecutive (b : Board) (x y dx dy : Int) (mark : Char) : Nat :=
  countConsecutiveAux b (dx, dy) mark (x, y) b.length

/-- `TicTacToeBoard::checkWinFromPosition(x, y, length, mark)`: for each of
the four directions, the consecutive counts in the positive and negative
direction plus the cell itself reach `length`. -/
def checkWinFromPosition (b : Board) (x y : Int) (len : Nat) (mark : Char) : Bool :=
  dirList.any (fun d =>
    decide (len ≤ countConsecutive b x y d.1 d.2 mark +
      countConsecutive b x y (-d.1) (-d.2) mark + 1))

/-- `TicTacToeBoard::checkWinQuiet(x, y, length)` (embedded in
src/README.md): `false` when `(x, y)` is unoccupied, otherwise
`checkWinFromPosition` for the mark found there. -/
def checkWinQuiet (b : Board) (p : Pos) (len : Nat) : Bool :=
  match lookupCell b p with
  | none => false
  | some mark => checkWinFromPosition b p.1 p.2 len mark

/-- `HybridEvaluatorAIv2::isWinningMove(board, x, y, playerMark)`: place the
mark, test the win, remove the mark again (which restores the board — all
call sites pass unoccupied cells). -/
def isWinningMove (b : Board) (x y : Int) (mark : Char) : Bool :=
  checkWinQuiet (placeMarkDirect (x, y) mark b) (x, y) 5

/-- `HybridEvaluatorAIv2::WIN_SCORE = 1000000`. -/
def WIN_SCORE : Int := 1000000

/-- `std::numeric_limits<int>::min()`. -/
def INT_MIN32 : Int := -2147483648

/-- `std::numeric_limits<int>::max()`. -/
def INT_MAX32 : Int := 2147483647

/-- The `MoveScore` record of hybrid_evaluator_ai_v2.h. -/
structure MoveScore where
  move : Pos
  score : Int
  ourScore : Int
  oppScore : Int
deriving DecidableEq, Repr

/-- Stable insertion step for the descending sort of `getTopNMoves`. -/
def insertDesc (ms : MoveScore) : List MoveScore → List MoveScore
  | [] => [ms]
  | a :: t => if a.score < ms.score then ms :: a :: t else a :: insertDesc ms t

/-- Model of `std::sort(..., a.score > b.score)`: descending by score.
(`std::sort` leaves the relative order of tied scores unspecified; the model
fixes the deterministic stable order.) -/
def sortByScoreDesc : List MoveScore → List MoveScore
  | [] => []
  | a :: t => insertDesc a (sortByScoreDesc t)

/-- Loop body of `getTopNMoves`: per candidate move, the two score deltas,
the net score with the immediate-win bonus, threading the board through the
mutation sequences exactly as the C++ does.  (The C++ also computes nothing
else observable per iteration.) -/
def scoreMoves (playerMark opponent : Char) (w : EvaluationWeights) :
    List Pos → Board → List MoveScore × Board
  | [], b => ([], b)
  | mv :: rest, b =>
    let r1 := calculateScoreDeltaSt b mv.1 mv.2 playerMark playerMark w
    let r2 := calculateScoreDeltaSt r1.2 mv.1 mv.2 playerMark opponent w
    let b3 := placeMarkDirect mv playerMark r2.2
    let net := r1.1 - r2.1 + (if checkWinQuiet b3 mv 5 then WIN_SCORE else 0)
    let b4 := removeMarkDirect mv b3
    let res := scoreMoves playerMark opponent w rest b4
    (⟨mv, net, r1.1, r2.1⟩ :: res.1, res.2)

/-- `HybridEvaluatorAIv2::getTopNMoves(board, moves, playerMark, n)`: score
every move of the set (in its sorted iteration order), sort descending by
score, keep the first `n`. -/
def getTopNMoves (b : Board) (moves : MoveSet) (playerMark : Char) (n : Nat)
    (w : EvaluationWeights) : List MoveScore × Board :=
  let opponent := if playerMark = 'X' then 'O' else 'X'
  let r := scoreMoves playerMark opponent w moves b
  ((sortByScoreDesc r.1).take n, r.2)

/-- Maximizing arm of the `minimax` move loop.  Mirrors the C++ statement
sequence, including the state effects of `calculateScoreDelta` on an
occupied cell (the just-placed move is erased from the board before the
recursive call — the board is threaded, not copied).  `recur` is the
recursion at the next depth with `isMaximizing = false`. -/
def maxLoop (w : EvaluationWeights) (useAB : Bool) (ourMark oppMark currentMark : Char)
    (recur : Int → Int → Board → MoveSet → Int → Int → Int × Board × MoveSet)
    (curOur curOpp beta : Int) :
    List MoveScore → Int → Int → Board → MoveSet → Int × Board × MoveSet
  | [], best, _, b, moves => (best, b, moves)
  | ms :: rest, best, alpha, b, moves =>
    let b1 := placeMarkDirect ms.move currentMark b
    if checkWinQuiet b1 ms.move 5 then
      (WIN_SCORE, removeMarkDirect ms.move b1, moves)
    else
      let moves1 := msErase ms.move moves
      let r := addAdjacentMoves moves1 b1 ms.move.1 ms.move.2
      let d1 := calculateScoreDeltaSt b1 ms.move.1 ms.move.2 currentMark ourMark w
      let d2 := calculateScoreDeltaSt d1.2 ms.move.1 ms.move.2 currentMark oppMark w
      let rr := recur alpha beta d2.2 r.1 (curOur + d1.1) (curOpp + d2.1)
      let b2 := removeMarkDirect ms.move rr.2.1
      let movesR := msInsert ms.move (List.foldl (fun t q => msErase q t) rr.2.2 r.2)
      let best1 := max best rr.1
      if useAB then
        let alpha1 := max alpha rr.1
        if beta ≤ alpha1 then (best1, b2, movesR)
        else maxLoop w useAB ourMark oppMark currentMark recur curOur curOpp beta
          rest best1 alpha1 b2 movesR
      else
        maxLoop w useAB ourMark oppMark currentMark recur curOur curOpp beta
          rest best1 alpha b2 movesR

/-- Minimizing arm of the `minimax` move loop (symmetric to `maxLoop`;
`alpha` is the constant, `beta` the running bound). -/
def minLoop (w : EvaluationWeights) (useAB : Bool) (ourMark oppMark currentMark : Char)
    (recur : Int → Int → Board → MoveSet → Int → Int → Int × Board × MoveSet)
    (curOur curOpp alpha : Int) :
    List MoveScore → Int → Int → Board → MoveSet → Int × Board × MoveSet
  | [], best, _, b, moves => (best, b, moves)
  | ms :: rest, best, beta, b, moves =>
    let b1 := placeMarkDirect ms.move currentMark b
    if checkWinQuiet b1 ms.move 5 then
      (-WIN_SCORE, removeMarkDirect ms.move b1, moves)
    else
      let moves1 := msErase ms.move moves
      let r := addAdjacentMoves moves1 b1 ms.move.1 ms.move.2
      let d1 := calculateScoreDeltaSt b1 ms.move.1 ms.move.2 currentMark ourMark w
      let d2 := calculateScoreDeltaSt d1.2 ms.move.1 ms.move.2 currentMark oppMark w
      let rr := recur alpha beta d2.2 r.1 (curOur + d1.1) (curOpp + d2.1)
      let b2 := removeMarkDirect ms.move rr.2.1
      let movesR := msInsert ms.move (List.foldl (fun t q => msErase q t) rr.2.2 r.2)
      let best1 := min best rr.1
      if useAB then
        let beta1 := min beta rr.1
        if beta1 ≤ alpha then (best1, b2, movesR)
        else minLoop w useAB ourMark oppMark currentMark recur curOur curOpp alpha
          rest best1 beta1 b2 movesR
      else
        minLoop w useAB ourMark oppMark currentMark recur curOur curOpp alpha
          rest best1 beta b2 movesR

/-- `HybridEvaluatorAIv2::minimax(board, depth, alpha, beta, isMaximizing,
ourMark, oppMark, currentMoves, currentOurScore, currentOppScore)`.  The C++
mutates `board` and `currentMoves` through references; the model returns the
value together with both final states.  Depth counts down; `depth - 1` on
`Nat` matches the C++ recursion, which is only entered with `depth >= 1`. -/
def minimax (w : EvaluationWeights) (topn : Nat) (useAB : Bool)
    (ourMark oppMark : Char) :
    Nat → Int → Int → Bool → Board → MoveSet → Int → Int → Int × Board × MoveSet
  | 0, _, _, _, b, moves, curOur, curOpp => (curOur - curOpp, b, moves)
  | d + 1, alpha, beta, isMax, b, moves, curOur, curOpp =>
    if moves = [] then (curOur - curOpp, b, moves)
    else
      let currentMark := if isMax then ourMark else oppMark
      let r := getTopNMoves b moves currentMark topn w
      if isMax then
        maxLoop w useAB ourMark oppMark currentMark
          (fun a bt bd mv so sp => minimax w topn useAB ourMark oppMark d a bt false bd mv so sp)
          curOur curOpp beta r.1 INT_MIN32 alpha r.2 moves
      else
        minLoop w useAB ourMark oppMark currentMark
          (fun a bt bd mv so sp => minimax w topn useAB ourMark oppMark d a bt true bd mv so sp)
          curOur curOpp alpha r.1 INT_MAX32 beta r.2 moves

/-! ### findBestMove (HybridEvaluatorAIv2) -/

/-- The 3x3 block around `(x, y)` including the centre, in the C++
iteration order of `AIUtils::computeAdjacentMoves`. -/
def square9 (x y : Int) : List Pos :=
  [(x - 1, y - 1), (x - 1, y), (x - 1, y + 1),
   (x, y - 1), (x, y), (x, y + 1),
   (x + 1, y - 1), (x + 1, y), (x + 1, y + 1)]

/-- `AIUtils::computeAdjacentMoves(board)`: every unoccupied cell adjacent
to an occupied cell (collected through a `std::set`, hence sorted). -/
def computeAdjacentMoves (b : Board) : MoveSet :=
  b.foldl (fun acc e =>
    (square9 e.1.1 e.1.2).foldl (fun acc2 p =>
      if isPositionOccupied b p = false then msInsert p acc2 else acc2) acc) []

/-- `AIUtils::updateAvailableMoves(availableMoves, board, moveX, moveY)`:
erase the played cell, insert its empty neighbours. -/
def updateAvailableMoves (avail : MoveSet) (b : Board) (mx my : Int) : MoveSet :=
  (neighborList mx my).foldl (fun acc p =>
    if isPositionOccupied b p = false then msInsert p acc else acc)
    (msErase (mx, my) avail)

/-- The uniform random pick `moves[uniform_int_distribution(0, size-1)(gen)]`,
with the random draw supplied as `k` (reduced modulo the list length). -/
def pickMove (l : List Pos) (k : Nat) : Pos :=
  l.getD (k % l.length) (0, 0)

/-- The candidate-move set `findBestMove` works with: the internal
`availableMoves` updated from `lastMove` (or recomputed from the board on a
first call with an empty set), with occupied cells filtered out. -/
def candidateMoves (avail : MoveSet) (b : Board) (lastMove : Option Pos) :
    MoveSet :=
  let avail1 :=
    match lastMove with
    | some lm => updateAvailableMoves avail b lm.1 lm.2
    | none => if avail = [] then computeAdjacentMoves b else avail
  avail1.filter (fun p => !(isPositionOccupied b p))

/-- The Priority-3 loop of `findBestMove`: run `minimax` (or use the
heuristic score at depth <= 1) from each top move's resulting position,
with the C++ make/unmake sequence threaded through board and move set. -/
def evalLoop (w : EvaluationWeights) (searchDepth topn : Nat) (useAB : Bool)
    (playerMark opponentMark : Char) (initOur initOpp : Int) :
    List MoveScore → Board → MoveSet → List (Pos × Int) × Board × MoveSet
  | [], b, sm => ([], b, sm)
  | ms :: rest, b, sm =>
    let b1 := placeMarkDirect ms.move playerMark b
    let sm1 := msErase ms.move sm
    let r := addAdjacentMoves sm1 b1 ms.move.1 ms.move.2
    let rr : Int × Board × MoveSet :=
      if searchDepth ≤ 1 then (ms.score, b1, r.1)
      else minimax w topn useAB playerMark opponentMark (searchDepth - 1)
        INT_MIN32 INT_MAX32 false b1 r.1 (initOur + ms.ourScore) (initOpp + ms.oppScore)
    let b2 := removeMarkDirect ms.move rr.2.1
    let smR := msInsert ms.move (List.foldl (fun t q => msErase q t) rr.2.2 r.2)
    let res := evalLoop w searchDepth topn useAB playerMark opponentMark
      initOur initOpp rest b2 smR
    ((ms.move, rr.1) :: res.1, res.2)

/-- The best-move scan of `findBestMove`: collect all moves attaining the
running maximum (`>` resets the list, `==` appends). -/
def bestOf : List (Pos × Int) → Int → List Pos → List Pos
  | [], _, acc => acc
  | r :: rest, bestv, acc =>
    if bestv < r.2 then bestOf rest r.2 [r.1]
    else if r.2 = bestv then bestOf rest bestv (acc ++ [r.1])
    else bestOf rest bestv acc

/-- `HybridEvaluatorAIv2::findBestMove(board, playerMark, lastMove)`: empty
board plays the origin; otherwise Priority-1 (take a winning move),
Priority-2 (block an opponent winning move), Priority-3 (minimax over the
top-N moves).  `avail` is the agent's internal `availableMoves` state;
`k1, k2, k3` supply the three possible random draws. -/
def findBestMove (w : EvaluationWeights) (searchDepth topn : Nat)
    (useAB : Bool) (avail : MoveSet) (b : Board) (playerMark : Char)
    (lastMove : Option Pos) (k1 k2 k3 : Nat) : Pos :=
  if b = [] then (0, 0)
  else
    let moves := candidateMoves avail b lastMove
    if moves = [] then (0, 0)
    else
      let winning := moves.filter (fun m => isWinningMove b m.1 m.2 playerMark)
      if winning ≠ [] then pickMove winning k1
      else
        let opponentMark := if playerMark = 'X' then 'O' else 'X'
        let blocking := moves.filter (fun m => isWinningMove b m.1 m.2 opponentMark)
        if blocking ≠ [] then pickMove blocking k2
        else
          let initOur := evaluatePositionFull b playerMark w
          let initOpp := evaluatePositionFull b opponentMark w
          let tm := getTopNMoves b moves playerMark topn w
          let res := evalLoop w searchDepth topn useAB playerMark opponentMark
            initOur initOpp tm.1 tm.2 moves
          let best := bestOf res.1 INT_MIN32 []
          let best1 := if best = [] then [moves.headD (0, 0)] else best
          pickMove best1 k3

/-! ### The weight trainer's game driver (WeightTrainer::playSilentGame)

`runTournament` plays `gamesPerMatchup` games per candidate pair with
`player1First = (game % 2 == 0)`.  `playSilentGame` builds two `MinimaxAI`
agents; their wall-clock time budget places their move choice outside a
shallow embedding, so the agents are abstracted as move functions — the
turn structure of the game loop is independent of them. -/

/-- An abstract move-choosing agent: `findBestMove(board, mark, lastMove)`. -/
abbrev Agent := Board → Char → Option Pos → Pos

/-- The `while (moveCount < maxMoves)` loop of `playSilentGame`, recording
the transcript as `(player number, move, mark)` triples.  Fuel is the
remaining move budget; one full iteration consumes two half-moves, and the
loop breaks after player 1's move when the budget is exhausted.  Player 1
(the first candidate's agent, `ai1`) takes the first half-move of every
iteration unconditionally. -/
def gameLoop (choose1 choose2 : Agent) (p1Mark p2Mark : Char) :
    Nat → Board → Option Pos → Int × List (Nat × Pos × Char)
  | 0, _, _ => (0, [])
  | 1, b, last =>
    let m1 := choose1 b p1Mark last
    let b1 := placeMarkDirect m1 p1Mark b
    if checkWinQuiet b1 m1 5 then (1, [(1, m1, p1Mark)])
    else (0, [(1, m1, p1Mark)])
  | n + 2, b, last =>
    let m1 := choose1 b p1Mark last
    let b1 := placeMarkDirect m1 p1Mark b
    if checkWinQuiet b1 m1 5 then (1, [(1, m1, p1Mark)])
    else
      let m2 := choose2 b1 p2Mark (some m1)
      let b2 := placeMarkDirect m2 p2Mark b1
      if checkWinQuiet b2 m2 5 then (-1, [(1, m1, p1Mark), (2, m2, p2Mark)])
      else
        let res := gameLoop choose1 choose2 p1Mark p2Mark n b2 (some m2)
        (res.1, (1, m1, p1Mark) :: (2, m2, p2Mark) :: res.2)

/-- `WeightTrainer::playSilentGame(weights1, weights2, maxMoves,
player1First)` with the agents abstracted and the transcript recorded:
`player1First` only selects which mark (`'X'`/`'O'`) each agent uses —
the loop itself always lets agent 1 move first.  Returns 1 when player 1
completes five-in-a-row, -1 for player 2, 0 on an exhausted move budget. -/
def playSilentGame (choose1 choose2 : Agent) (maxMoves : Nat)
    (player1First : Bool) : Int × List (Nat × Pos × Char) :=
  let p1Mark := if player1First then 'X' else 'O'
  let p2Mark := if player1First then 'O' else 'X'
  gameLoop choose1 choose2 p1Mark p2Mark maxMoves [] none

/-! ### Concrete boards used by the search-engine evaluations -/

/-- Four `X` in a row: `(0,0)` or `(5,0)` completes five. -/
def boardFourX : Board :=
  [((1, 0), 'X'), ((2, 0), 'X'), ((3, 0), 'X'), ((4, 0), 'X')]

/-- Four `O` in a row: `(0,0)` or `(5,0)` completes five. -/
def boardFourO : Board :=
  [((1, 0), 'O'), ((2, 0), 'O'), ((3, 0), 'O'), ((4, 0), 'O')]

/-- Two parallel `X` fours on rows 0 and 1: `(0,0)` and `(0,1)` (and
`(5,0)`, `(5,1)`) are completing cells, so a single block cannot stop both. -/
def boardTwoRowsX : Board :=
  [((1, 0), 'X'), ((1, 1), 'X'), ((2, 0), 'X'), ((2, 1), 'X'),
   ((3, 0), 'X'), ((3, 1), 'X'), ((4, 0), 'X'), ((4, 1), 'X')]

/-- A board where `X` holds an open four on row 0 and `O` a three on
row 1: `X` to move has the winning completions `(0,0)` and `(5,0)`. -/
def boardC5 : Board :=
  [((1, 0), 'X'), ((1, 1), 'O'), ((2, 0), 'X'), ((2, 1), 'O'),
   ((3, 0), 'X'), ((3, 1), 'O'), ((4, 0), 'X')]


/-! ## Theorems -/

theorem posLt_trans {p q r : Pos} (h1 : posLt p q) (h2 : posLt q r) : posLt p r := by
  rcases p with ⟨a, b⟩; rcases q with ⟨c, d⟩; rcases r with ⟨e, f⟩
  simp only [posLt] at *; omega

theorem posLt_asymm {p q : Pos} (h : posLt p q) : ¬ posLt q p := by
  rcases p with ⟨a, b⟩; rcases q with ⟨c, d⟩
  simp only [posLt] at *; omega

theorem posLt_irrefl (p : Pos) : ¬ posLt p p := by
  rcases p with ⟨a, b⟩; simp only [posLt]; omega

theorem posLt_ne {p q : Pos} (h : posLt p q) : p ≠ q :=
  fun he => posLt_irrefl q (he ▸ h)

theorem posLt_trichotomy (p q : Pos) : posLt p q ∨ p = q ∨ posLt q p := by
  rcases p with ⟨a, b⟩; rcases q with ⟨c, d⟩
  simp only [posLt, Prod.mk.injEq]; omega

theorem lookupCell_placeMarkDirect (b : Board) (p q : Pos) (c : Char) :
    lookupCell (placeMarkDirect p c b) q = if q = p then some c else lookupCell b q := by
  induction b with
  | nil =>
    simp only [placeMarkDirect, lookupCell]
  | cons e t ih =>
    rcases e with ⟨r, m⟩
    by_cases h1 : posLt p r
    · simp only [placeMarkDirect, if_pos h1]
      rfl
    · simp only [placeMarkDirect, if_neg h1]
      by_cases h3 : p = r
      · subst h3
        simp only [if_pos rfl]
        by_cases h2 : q = p
        · simp [lookupCell, h2]
        · simp [lookupCell, h2]
      · simp only [if_neg h3]
        by_cases h4 : q = r
        · have hqp : ¬ q = p := by
            rw [h4]; intro h; exact h3 h.symm
          have hrp : ¬ r = p := fun h => h3 h.symm
          simp [lookupCell, h4, hqp, hrp]
        · simp [lookupCell, h4, ih]

theorem removeMarkDirect_placeMarkDirect (b : Board) (p : Pos) (c : Char)
    (hfree : lookupCell b p = none) :
    removeMarkDirect p (placeMarkDirect p c b) = b := by
  induction b with
  | nil => simp [placeMarkDirect, removeMarkDirect]
  | cons e t ih =>
    rcases e with ⟨q, m⟩
    have hpq : ¬ p = q := by
      intro h
      simp [lookupCell, h] at hfree
    by_cases h1 : posLt p q
    · simp [placeMarkDirect, if_pos h1, removeMarkDirect, hpq]
    · rw [lookupCell, if_neg hpq] at hfree
      simp [placeMarkDirect, if_neg h1, hpq, removeMarkDirect, ih hfree]

theorem mem_msInsert (p q : Pos) (l : MoveSet) :
    q ∈ msInsert p l ↔ q = p ∨ q ∈ l := by
  induction l with
  | nil => simp [msInsert]
  | cons a t ih =>
    by_cases h1 : posLt p a
    · simp [msInsert, h1]
    · by_cases h2 : p = a
      · subst h2
        rw [msInsert, if_neg h1, if_pos rfl]
        simp only [List.mem_cons]
        tauto
      · simp only [msInsert, if_neg h1, if_neg h2, List.mem_cons, ih]
        tauto

theorem msErase_sublist (p : Pos) (l : MoveSet) : (msErase p l).Sublist l := by
  induction l with
  | nil => simp [msErase]
  | cons a t ih =>
    by_cases h : p = a
    · simpa [msErase, h] using List.sublist_cons_self a t
    · simpa [msErase, h] using List.Sublist.cons₂ a ih

theorem sorted_msInsert (p : Pos) (l : MoveSet) (hl : l.Sorted posLt) :
    (msInsert p l).Sorted posLt := by
  induction l with
  | nil => simp [msInsert]
  | cons a t ih =>
    rw [List.sorted_cons] at hl
    obtain ⟨ha, ht⟩ := hl
    by_cases h1 : posLt p a
    · rw [msInsert, if_pos h1, List.sorted_cons]
      refine ⟨?_, by rw [List.sorted_cons]; exact ⟨ha, ht⟩⟩
      intro x hx
      rcases List.mem_cons.mp hx with rfl | hx
      · exact h1
      · exact posLt_trans h1 (ha x hx)
    · by_cases h2 : p = a
      · rw [msInsert, if_neg h1, if_pos h2, List.sorted_cons]
        exact ⟨ha, ht⟩
      · rw [msInsert, if_neg h1, if_neg h2, List.sorted_cons]
        have hap : posLt a p := by
          rcases posLt_trichotomy p a with h | h | h
          · exact absurd h h1
          · exact absurd h h2
          · exact h
        refine ⟨?_, ih ht⟩
        intro x hx
        rcases (mem_msInsert p x t).mp hx with rfl | hx
        · exact hap
        · exact ha x hx

theorem msErase_msInsert (p : Pos) (l : MoveSet) (hp : p ∉ l) :
    msErase p (msInsert p l) = l := by
  induction l with
  | nil => simp [msInsert, msErase]
  | cons a t ih =>
    have hpa : p ≠ a := fun h => hp (h ▸ List.mem_cons_self a t)
    have hpt : p ∉ t := fun h => hp (List.mem_cons_of_mem a h)
    by_cases h1 : posLt p a
    · simp [msInsert, h1, msErase]
    · rw [msInsert, if_neg h1, if_neg hpa, msErase, if_neg hpa, ih hpt]

theorem msInsert_msErase (p : Pos) (l : MoveSet) (hl : l.Sorted posLt)
    (hp : p ∈ l) : msInsert p (msErase p l) = l := by
  induction l with
  | nil => cases hp
  | cons a t ih =>
    rw [List.sorted_cons] at hl
    obtain ⟨ha, ht⟩ := hl
    by_cases h1 : p = a
    · subst h1
      rw [msErase, if_pos rfl]
      cases t with
      | nil => rfl
      | cons x t' =>
        have hx : posLt p x := ha x (List.mem_cons_self x t')
        rw [msInsert, if_pos hx]
    · have hpt : p ∈ t := by
        rcases List.mem_cons.mp hp with h | h
        · exact absurd h h1
        · exact h
      have hap : posLt a p := ha p hpt
      rw [msErase, if_neg h1, msInsert, if_neg (posLt_asymm hap), if_neg h1,
        ih ht hpt]

theorem msErase_comm (p q : Pos) (l : MoveSet) (hpq : p ≠ q) :
    msErase p (msErase q l) = msErase q (msErase p l) := by
  induction l with
  | nil => simp [msErase]
  | cons a t ih =>
    by_cases h1 : q = a
    · subst h1
      have hpa : ¬ p = q := hpq
      rw [msErase, if_pos rfl, msErase, if_neg hpa, msErase, if_pos rfl]
    · by_cases h2 : p = a
      · subst h2
        have hqa : ¬ q = p := fun h => hpq h.symm
        rw [msErase, if_neg h1, msErase, if_pos rfl, msErase, if_pos rfl]
      · rw [msErase, if_neg h1, msErase, if_neg h2, msErase, if_neg h2,
          msErase, if_neg h1, ih]

theorem foldl_msErase_comm (L : List Pos) (p : Pos) (t0 : MoveSet)
    (h : ∀ r ∈ L, r ≠ p) :
    List.foldl (fun t r => msErase r t) (msErase p t0) L =
      msErase p (List.foldl (fun t r => msErase r t) t0 L) := by
  induction L generalizing t0 with
  | nil => rfl
  | cons r L' ih =>
    have hrp : r ≠ p := h r (List.mem_cons_self r L')
    have h' : ∀ r' ∈ L', r' ≠ p := fun r' hr' => h r' (List.mem_cons_of_mem r hr')
    calc
      List.foldl (fun t r => msErase r t) (msErase p t0) (r :: L')
          = List.foldl (fun t r => msErase r t) (msErase r (msErase p t0)) L' := rfl
      _ = List.foldl (fun t r => msErase r t) (msErase p (msErase r t0)) L' := by
            rw [msErase_comm r p t0 hrp]
      _ = msErase p (List.foldl (fun t r => msErase r t) (msErase r t0) L') := ih _ h'
      _ = msErase p (List.foldl (fun t r => msErase r t) t0 (r :: L')) := rfl

theorem addAux_added_not_mem (b : Board) (nbrs : List Pos) (ms : MoveSet)
    (q : Pos) (hq : q ∈ (addAux b nbrs ms).2) : q ∉ ms := by
  induction nbrs generalizing ms with
  | nil => cases hq
  | cons p rest ih =>
    by_cases hc : isPositionOccupied b p = false ∧ p ∉ ms
    · rw [addAux, if_pos hc] at hq
      rcases List.mem_cons.mp hq with rfl | hq
      · exact hc.2
      · intro hmem
        exact ih (msInsert p ms) hq ((mem_msInsert p q ms).mpr (Or.inr hmem))
    · rw [addAux, if_neg hc] at hq
      exact ih ms hq

theorem addAux_sorted (b : Board) (nbrs : List Pos) (ms : MoveSet)
    (hms : ms.Sorted posLt) : (addAux b nbrs ms).1.Sorted posLt := by
  induction nbrs generalizing ms with
  | nil => exact hms
  | cons p rest ih =>
    by_cases hc : isPositionOccupied b p = false ∧ p ∉ ms
    · rw [addAux, if_pos hc]
      exact ih (msInsert p ms) (sorted_msInsert p ms hms)
    · rw [addAux, if_neg hc]
      exact ih ms hms

theorem addAux_undo (b : Board) (nbrs : List Pos) (ms : MoveSet)
    (hms : ms.Sorted posLt) :
    List.foldl (fun t r => msErase r t) (addAux b nbrs ms).1 (addAux b nbrs ms).2 = ms := by
  induction nbrs generalizing ms with
  | nil => rfl
  | cons p rest ih =>
    by_cases hc : isPositionOccupied b p = false ∧ p ∉ ms
    · rw [addAux, if_pos hc]
      have hnp : ∀ r ∈ (addAux b rest (msInsert p ms)).2, r ≠ p := by
        intro r hr hrp
        exact addAux_added_not_mem b rest (msInsert p ms) r hr
          ((mem_msInsert p r ms).mpr (Or.inl hrp))
      calc
        List.foldl (fun t r => msErase r t) (addAux b rest (msInsert p ms)).1
            (p :: (addAux b rest (msInsert p ms)).2)
            = List.foldl (fun t r => msErase r t)
                (msErase p (addAux b rest (msInsert p ms)).1)
                (addAux b rest (msInsert p ms)).2 := rfl
        _ = msErase p (List.foldl (fun t r => msErase r t)
                (addAux b rest (msInsert p ms)).1
                (addAux b rest (msInsert p ms)).2) :=
              foldl_msErase_comm _ p _ hnp
        _ = msErase p (msInsert p ms) := by
              rw [ih (msInsert p ms) (sorted_msInsert p ms hms)]
        _ = ms := msErase_msInsert p ms hc.2
    · rw [addAux, if_neg hc]
      exact ih ms hms

theorem canonKey_horiz (a c : Int) :
    canonKey (a, c) (1, 0) = ((a, c), (a + 4, c)) := by
  have h : posLt (a, c) ((a, c).1 + 4 * (1, 0).1, (a, c).2 + 4 * (1, 0).2) :=
    Or.inl (by norm_num)
  rw [canonKey, if_pos h]
  simp only [Prod.mk.injEq]
  norm_num

theorem canonKey_vert (a c : Int) :
    canonKey (a, c) (0, 1) = ((a, c), (a, c + 4)) := by
  have h : posLt (a, c) ((a, c).1 + 4 * (0, 1).1, (a, c).2 + 4 * (0, 1).2) :=
    Or.inr (by constructor <;> norm_num)
  rw [canonKey, if_pos h]
  simp only [Prod.mk.injEq]
  norm_num

theorem canonKey_diag (a c : Int) :
    canonKey (a, c) (1, 1) = ((a, c), (a + 4, c + 4)) := by
  have h : posLt (a, c) ((a, c).1 + 4 * (1, 1).1, (a, c).2 + 4 * (1, 1).2) :=
    Or.inl (by norm_num)
  rw [canonKey, if_pos h]
  simp only [Prod.mk.injEq]
  norm_num

theorem canonKey_anti (a c : Int) :
    canonKey (a, c) (1, -1) = ((a, c), (a + 4, c - 4)) := by
  have h : posLt (a, c) ((a, c).1 + 4 * (1, -1).1, (a, c).2 + 4 * (1, -1).2) :=
    Or.inl (by norm_num)
  rw [canonKey, if_pos h]
  simp only [Prod.mk.injEq]
  constructor
  · norm_num
  · constructor <;> omega

set_option maxHeartbeats 1000000 in
/-- The twenty windows through a cell have pairwise distinct canonical keys:
the endpoint difference determines the direction and the start determines
the offset. -/
theorem windowsThrough_keys_nodup (mx my : Int) :
    ((windowsThrough mx my).map (fun sd => canonKey sd.1 sd.2)).Nodup := by
  simp only [windowsThrough, dirList, offsets, List.flatMap_cons, List.flatMap_nil,
    List.map_cons, List.map_nil, List.append_nil, List.map_append,
    List.cons_append, List.nil_append,
    canonKey_horiz, canonKey_vert, canonKey_diag, canonKey_anti]
  simp only [List.nodup_cons, List.mem_cons, List.mem_singleton,
    List.not_mem_nil, Prod.mk.injEq, not_or, List.nodup_nil, and_true,
    not_false_eq_true]
  norm_num
  omega

theorem incAux_eq_sum (b : Board) (em : Char) (w : EvaluationWeights)
    (L : List (Pos × Pos)) (counted : List (Pos × Pos))
    (hnd : (L.map (fun sd => canonKey sd.1 sd.2)).Nodup)
    (hdis : ∀ sd ∈ L, canonKey sd.1 sd.2 ∉ counted) :
    incAux b em w L counted =
      (L.map (fun sd => (windowEval b sd.1 sd.2 em w).1)).sum := by
  induction L generalizing counted with
  | nil => rfl
  | cons sd rest ih =>
    simp only [List.map_cons, List.nodup_cons] at hnd
    have hnotc : canonKey sd.1 sd.2 ∉ counted :=
      hdis sd (List.mem_cons_self sd rest)
    have hrest : incAux b em w rest (canonKey sd.1 sd.2 :: counted) =
        (rest.map (fun sd => (windowEval b sd.1 sd.2 em w).1)).sum := by
      refine ih _ hnd.2 ?_
      intro sd' hsd'
      simp only [List.mem_cons, not_or]
      exact ⟨fun he => hnd.1 (he ▸ List.mem_map_of_mem (fun sd => canonKey sd.1 sd.2) hsd'),
        hdis sd' (List.mem_cons_of_mem sd hsd')⟩
    simp only [incAux]
    rw [if_neg hnotc, hrest, List.map_cons, List.sum_cons]

theorem evaluatePositionIncremental_eq_sum (b : Board) (mx my : Int)
    (em : Char) (w : EvaluationWeights) :
    evaluatePositionIncremental b mx my em w =
      ((windowsThrough mx my).map
        (fun sd => (windowEval b sd.1 sd.2 em w).1)).sum :=
  incAux_eq_sum b em w (windowsThrough mx my) []
    (windowsThrough_keys_nodup mx my) (fun _ _ => List.not_mem_nil _)

/-! ### Claims C7, C8, C9, C10 -/

/-- C7.  Backward-compatible weight loading: for every genome value,
`loadFromFile` applied to a readable file containing only the first five
weight lines succeeds (returns `true`), assigns the five present fields from
the file, and leaves `double_threat` at the value it held before the call. -/
theorem claim_C7_load_backcompat (a b c d e : Int) (w : EvaluationWeights) :
    loadFromFile (some [a, b, c, d, e]) w =
      (true,
        { four_open := a, four_blocked := b, three_open := c
          three_blocked := d, two_open := e, double_threat := w.double_threat }) := by
  rfl

/-- C8.  Serialization round-trip: saving the six fields with `saveToFile`
(one integer per line, fixed order) and loading the produced file with
`loadFromFile` succeeds and restores all six fields, whatever the loader's
starting genome was. -/
theorem claim_C8_roundtrip (w start : EvaluationWeights) :
    loadFromFile (some (saveToFile w)) start = (true, w) := by
  rfl

/-- C9.  Mutation positivity: for every genome, every mutation rate in
`(0,1)` and every sequence of random draws, all six fields of the mutated
genome are at least 1 (the `std::max(1, newValue)` floor). -/
theorem claim_C9_mutate_positive (w : EvaluationWeights) (rate : ℚ)
    (draws : Fin 6 → Nat) (hr0 : 0 < rate) (hr1 : rate < 1) :
    1 ≤ (mutate w rate draws).four_open ∧
    1 ≤ (mutate w rate draws).four_blocked ∧
    1 ≤ (mutate w rate draws).three_open ∧
    1 ≤ (mutate w rate draws).three_blocked ∧
    1 ≤ (mutate w rate draws).two_open ∧
    1 ≤ (mutate w rate draws).double_threat :=
  ⟨le_max_left 1 _, le_max_left 1 _, le_max_left 1 _,
   le_max_left 1 _, le_max_left 1 _, le_max_left 1 _⟩

/-- Witness for C9 at a concrete genome, rate `1/2` and all-zero draws. -/
theorem claim_C9_witness :
    0 < (1/2 : ℚ) ∧ (1/2 : ℚ) < 1 ∧
      1 ≤ (mutate defaultWeights (1/2) (fun _ => 0)).four_open :=
  ⟨by norm_num, by norm_num,
   (claim_C9_mutate_positive defaultWeights (1/2) (fun _ => 0)
     (by norm_num) (by norm_num)).1⟩

/-- C10.  Turn-tracking placement atomicity: `placeMark` on an occupied cell
returns `false` and changes nothing; on an unoccupied cell it returns
`true`, stores the current player's mark at `(x, y)` (all other cells
unchanged) and swaps the current player between `'X'` and `'O'`. -/
theorem claim_C10_placeMark (st : TicTacToeBoard) (x y : Int) :
    (isPositionOccupied st.board (x, y) = true → placeMark st x y = (false, st)) ∧
    (isPositionOccupied st.board (x, y) = false →
      (placeMark st x y).1 = true ∧
      lookupCell (placeMark st x y).2.board (x, y) = some st.currentPlayer ∧
      (∀ p : Pos, p ≠ (x, y) →
        lookupCell (placeMark st x y).2.board p = lookupCell st.board p) ∧
      (placeMark st x y).2.currentPlayer =
        (if st.currentPlayer = 'X' then 'O' else 'X')) := by
  constructor
  · intro hocc
    simp [placeMark, hocc]
  · intro hfree
    refine ⟨by simp [placeMark, hfree], ?_, ?_, by simp [placeMark, hfree]⟩
    · simp [placeMark, hfree, lookupCell_placeMarkDirect]
    · intro p hp
      simp [placeMark, hfree, lookupCell_placeMarkDirect, hp]

/-- Witness for C10: both branches exercised on concrete boards. -/
theorem claim_C10_witness :
    (placeMark ⟨[((0, 0), 'X')], 'O'⟩ 0 0 = (false, ⟨[((0, 0), 'X')], 'O'⟩)) ∧
    (lookupCell (placeMark ⟨[((0, 0), 'X')], 'O'⟩ 1 0).2.board (1, 0) = some 'O') :=
  ⟨(claim_C10_placeMark ⟨[((0, 0), 'X')], 'O'⟩ 0 0).1 (by decide),
   ((claim_C10_placeMark ⟨[((0, 0), 'X')], 'O'⟩ 1 0).2 (by decide)).2.1⟩

/-! ### Claim C1 -/

/-- C1.  Make/unmake round-trip: placing a mark on an unoccupied cell with
`placeMarkDirect` and removing it with `removeMarkDirect` restores the
occupant mapping exactly; and the minimax expansion bookkeeping — erase the
move cell from the available-move set, insert the newly added empty
neighbours (`addAdjacentMoves`), then undo by erasing exactly the added
cells and re-inserting the move cell — restores the available-move set to
its pre-expansion content (for any board `b2` seen by the expansion). -/
theorem claim_C1_make_unmake (b : Board) (x y : Int) (mark : Char)
    (hfree : lookupCell b (x, y) = none)
    (s : MoveSet) (hs : s.Sorted posLt) (hmem : (x, y) ∈ s) (b2 : Board) :
    removeMarkDirect (x, y) (placeMarkDirect (x, y) mark b) = b ∧
    msInsert (x, y)
      (List.foldl (fun t r => msErase r t)
        (addAdjacentMoves (msErase (x, y) s) b2 x y).1
        (addAdjacentMoves (msErase (x, y) s) b2 x y).2) = s := by
  refine ⟨removeMarkDirect_placeMarkDirect b (x, y) mark hfree, ?_⟩
  have hs1 : (msErase (x, y) s).Sorted posLt :=
    List.Pairwise.sublist (msErase_sublist (x, y) s) hs
  rw [addAdjacentMoves, addAux_undo b2 (neighborList x y) (msErase (x, y) s) hs1]
  exact msInsert_msErase (x, y) s hs hmem

/-- Witness for C1 on a concrete board, cell and frontier. -/
theorem claim_C1_witness :
    lookupCell [((0, 0), 'X')] (1, 0) = none ∧
    removeMarkDirect (1, 0) (placeMarkDirect (1, 0) 'O' [((0, 0), 'X')]) = [((0, 0), 'X')] :=
  ⟨by decide,
   (claim_C1_make_unmake [((0, 0), 'X')] 1 0 'O' (by decide)
      [(1, 0)] (List.sorted_singleton (1, 0)) (List.mem_singleton.mpr rfl)
      [((0, 0), 'X'), ((1, 0), 'O')]).1⟩

/-! ### Claim C2 -/

/-- C2.  Evaluator delta equivalence: for every board, empty cell `(mx,my)`
and marks `(moveMark, evalMark)`, `calculateScoreDelta` equals the full
evaluator's per-window difference — after placing the move minus before —
restricted to the 5-cell windows through `(mx, my)`, with the double-threat
bonus excluded (`specRestrictedFullDelta`). -/
theorem claim_C2_delta_equiv (b : Board) (mx my : Int)
    (moveMark evalMark : Char) (w : EvaluationWeights)
    (hfree : lookupCell b (mx, my) = none) :
    calculateScoreDelta b mx my moveMark evalMark w =
      specRestrictedFullDelta b mx my moveMark evalMark w := by
  simp only [calculateScoreDelta, calculateScoreDeltaSt, specRestrictedFullDelta,
    evaluatePositionIncremental_eq_sum]

/-- Witness for C2 on a concrete board and cell. -/
theorem claim_C2_witness :
    lookupCell [((0, 0), 'X'), ((1, 0), 'X')] (2, 0) = none ∧
    calculateScoreDelta [((0, 0), 'X'), ((1, 0), 'X')] 2 0 'X' 'X' defaultWeights =
      specRestrictedFullDelta [((0, 0), 'X'), ((1, 0), 'X')] 2 0 'X' 'X' defaultWeights :=
  ⟨by decide,
   claim_C2_delta_equiv [((0, 0), 'X'), ((1, 0), 'X')] 2 0 'X' 'X' defaultWeights (by decide)⟩

/-! ### Claims C3 and C4 -/

/-- C3 counterexample: `minimax` at non-zero depth with an empty
available-move set and running scores `5 / 0` returns `5`, not the claimed
draw score `0`. -/
theorem claim_C3_counterexample :
    (minimax defaultWeights 10 true 'X' 'O' 1 INT_MIN32 INT_MAX32 true
      [] [] 5 0).1 ≠ 0 := by
  decide

/-- C3 as amended: `minimax` called with non-zero remaining depth and an
empty available-move set returns `currentOurScore - currentOppScore` (the
same value as the depth-exhausted terminal), for every configuration and
every pair of running score accumulators. -/
theorem claim_C3_empty_frontier (w : EvaluationWeights) (topn : Nat)
    (ab : Bool) (our opp : Char) (depth : Nat) (alpha beta : Int)
    (isMax : Bool) (b : Board) (moves : MoveSet) (curOur curOpp : Int)
    (hd : depth ≠ 0) (hm : moves = []) :
    (minimax w topn ab our opp depth alpha beta isMax b moves curOur curOpp).1 =
      curOur - curOpp := by
  subst hm
  cases depth with
  | zero => exact absurd rfl hd
  | succ d => simp [minimax]

/-- Witness for C3 (amended) at a concrete configuration. -/
theorem claim_C3_witness :
    (minimax defaultWeights 10 true 'X' 'O' 1 INT_MIN32 INT_MAX32 true
      [] [] 5 2).1 = 5 - 2 :=
  claim_C3_empty_frontier defaultWeights 10 true 'X' 'O' 1 INT_MIN32 INT_MAX32
    true [] [] 5 2 (by decide) rfl

set_option maxHeartbeats 4000000 in
/-- C4 counterexample: the win terminal of `HybridEvaluatorAIv2::minimax`
carries no depth adjustment.  On `boardTwoRowsX` with frontier `{(0,0)}` the
maximizer wins at the first ply; with frontier `{(-1,0)}` the win only
happens at the third ply (the completing cells enter the frontier through
adjacency, and the opponent can block at most one of the two fours).  Both
searches return exactly `WIN_SCORE = 1000000`, so the faster win does NOT
receive a strictly higher score. -/
theorem claim_C4_counterexample :
    (minimax defaultWeights 3 true 'X' 'O' 3 INT_MIN32 INT_MAX32 true
        boardTwoRowsX [(0, 0)] 0 0).1 = 1000000 ∧
    (minimax defaultWeights 3 true 'X' 'O' 3 INT_MIN32 INT_MAX32 true
        boardTwoRowsX [(-1, 0)] 0 0).1 = 1000000 ∧
    ¬ ((minimax defaultWeights 3 true 'X' 'O' 3 INT_MIN32 INT_MAX32 true
          boardTwoRowsX [(0, 0)] 0 0).1 >
        (minimax defaultWeights 3 true 'X' 'O' 3 INT_MIN32 INT_MAX32 true
          boardTwoRowsX [(-1, 0)] 0 0).1) := by
  have h1 : (minimax defaultWeights 3 true 'X' 'O' 3 INT_MIN32 INT_MAX32 true
      boardTwoRowsX [(0, 0)] 0 0).1 = 1000000 := by decide
  have h2 : (minimax defaultWeights 3 true 'X' 'O' 3 INT_MIN32 INT_MAX32 true
      boardTwoRowsX [(-1, 0)] 0 0).1 = 1000000 := by decide
  refine ⟨h1, h2, ?_⟩
  rw [h1, h2]
  omega

/-- C4 as amended: whenever the minimax move loop reaches a simulated move
that completes five-in-a-row — any move of the expansion, at any loop state
(running best value, alpha/beta bound, board and move-set state) and under
any continuation, hence at any depth — it returns exactly `+WIN_SCORE` at a
maximizing node and exactly `-WIN_SCORE` at a minimizing node, with the
move unmade.  No depth adjustment is applied (the `1000 - depth` /
`-1000 + depth` scheme exists only in the older `MinimaxAI::minimax`).
The last two conjuncts instantiate this at the entry of `minimax` itself. -/
theorem claim_C4_win_terminal (w : EvaluationWeights) (topn : Nat) (ab : Bool)
    (our opp : Char) (d : Nat) (alpha beta : Int) (b : Board)
    (moves : MoveSet) (curOur curOpp : Int) (ms : MoveScore) :
    (∀ (recur : Int → Int → Board → MoveSet → Int → Int → Int × Board × MoveSet)
        (cm : Char) (ms' : MoveScore) (rest : List MoveScore) (best al : Int)
        (b2 : Board) (mvs : MoveSet),
      checkWinQuiet (placeMarkDirect ms'.move cm b2) ms'.move 5 = true →
      maxLoop w ab our opp cm recur curOur curOpp beta (ms' :: rest) best al b2 mvs =
        (WIN_SCORE, removeMarkDirect ms'.move (placeMarkDirect ms'.move cm b2), mvs)) ∧
    (∀ (recur : Int → Int → Board → MoveSet → Int → Int → Int × Board × MoveSet)
        (cm : Char) (ms' : MoveScore) (rest : List MoveScore) (best bt : Int)
        (b2 : Board) (mvs : MoveSet),
      checkWinQuiet (placeMarkDirect ms'.move cm b2) ms'.move 5 = true →
      minLoop w ab our opp cm recur curOur curOpp alpha (ms' :: rest) best bt b2 mvs =
        (-WIN_SCORE, removeMarkDirect ms'.move (placeMarkDirect ms'.move cm b2), mvs)) ∧
    ((getTopNMoves b moves our topn w).1.head? = some ms →
      checkWinQuiet (placeMarkDirect ms.move our (getTopNMoves b moves our topn w).2)
          ms.move 5 = true →
      (minimax w topn ab our opp (d + 1) alpha beta true b moves curOur curOpp).1 =
        WIN_SCORE) ∧
    ((getTopNMoves b moves opp topn w).1.head? = some ms →
      checkWinQuiet (placeMarkDirect ms.move opp (getTopNMoves b moves opp topn w).2)
          ms.move 5 = true →
      (minimax w topn ab our opp (d + 1) alpha beta false b moves curOur curOpp).1 =
        -WIN_SCORE) := by
  refine ⟨?_, ?_, ?_, ?_⟩
  · intro recur cm ms' rest best al b2 mvs hwin
    simp only [maxLoop, hwin, if_true]
  · intro recur cm ms' rest best bt b2 mvs hwin
    simp only [minLoop, hwin, if_true]
  · intro h1 h2
    have hm : ¬ moves = [] := by
      intro he
      rw [he] at h1
      simp [getTopNMoves, scoreMoves, sortByScoreDesc] at h1
    obtain ⟨tail, hl⟩ : ∃ tail, (getTopNMoves b moves our topn w).1 = ms :: tail := by
      cases hx : (getTopNMoves b moves our topn w).1 with
      | nil => rw [hx] at h1; cases h1
      | cons a t =>
        rw [hx] at h1
        simp only [List.head?_cons, Option.some.injEq] at h1
        exact ⟨t, by rw [h1]⟩
    simp only [minimax, if_neg hm, if_true]
    rw [hl]
    simp only [maxLoop, h2, if_true]
  · intro h1 h2
    have hm : ¬ moves = [] := by
      intro he
      rw [he] at h1
      simp [getTopNMoves, scoreMoves, sortByScoreDesc] at h1
    obtain ⟨tail, hl⟩ : ∃ tail, (getTopNMoves b moves opp topn w).1 = ms :: tail := by
      cases hx : (getTopNMoves b moves opp topn w).1 with
      | nil => rw [hx] at h1; cases h1
      | cons a t =>
        rw [hx] at h1
        simp only [List.head?_cons, Option.some.injEq] at h1
        exact ⟨t, by rw [h1]⟩
    simp only [minimax, if_neg hm, Bool.false_eq_true, if_false]
    rw [hl]
    simp only [minLoop, h2, if_true]

/-- Witness for C4 (amended), exercising all four conjuncts at concrete
inputs: the move loops at a mid-iteration state (non-trivial running best
value and bound, a dummy continuation) and `minimax` itself, on concrete
four-in-a-row boards. -/
theorem claim_C4_witness :
    maxLoop defaultWeights true 'X' 'O' 'X' (fun _ _ bd mv _ _ => (0, bd, mv))
        0 0 2147483647 [⟨(0, 0), 9, 0, 0⟩] (-7) (-5) boardFourX [(0, 0)] =
      (WIN_SCORE, removeMarkDirect (0, 0) (placeMarkDirect (0, 0) 'X' boardFourX),
        [(0, 0)]) ∧
    minLoop defaultWeights true 'X' 'O' 'O' (fun _ _ bd mv _ _ => (0, bd, mv))
        0 0 (-2147483647) [⟨(0, 0), 9, 0, 0⟩] 7 5 boardFourO [(0, 0)] =
      (-WIN_SCORE, removeMarkDirect (0, 0) (placeMarkDirect (0, 0) 'O' boardFourO),
        [(0, 0)]) ∧
    (minimax defaultWeights 10 true 'X' 'O' 1 INT_MIN32 INT_MAX32 true
        boardFourX [(0, 0)] 0 0).1 = WIN_SCORE ∧
    (minimax defaultWeights 10 true 'X' 'O' 1 INT_MIN32 INT_MAX32 false
        boardFourO [(0, 0)] 0 0).1 = -WIN_SCORE :=
  ⟨(claim_C4_win_terminal defaultWeights 10 true 'X' 'O' 0 (-2147483647) 2147483647
      boardFourX [(0, 0)] 0 0 ⟨(0, 0), 9, 0, 0⟩).1
      (fun _ _ bd mv _ _ => (0, bd, mv)) 'X' ⟨(0, 0), 9, 0, 0⟩ [] (-7) (-5)
      boardFourX [(0, 0)] (by decide),
   (claim_C4_win_terminal defaultWeights 10 true 'X' 'O' 0 (-2147483647) 2147483647
      boardFourO [(0, 0)] 0 0 ⟨(0, 0), 9, 0, 0⟩).2.1
      (fun _ _ bd mv _ _ => (0, bd, mv)) 'O' ⟨(0, 0), 9, 0, 0⟩ [] 7 5
      boardFourO [(0, 0)] (by decide),
   (claim_C4_win_terminal defaultWeights 10 true 'X' 'O' 0 INT_MIN32 INT_MAX32
      boardFourX [(0, 0)] 0 0
      ((getTopNMoves boardFourX [(0, 0)] 'X' 10 defaultWeights).1.headD
        ⟨(0, 0), 0, 0, 0⟩)).2.2.1 (by decide) (by decide),
   (claim_C4_win_terminal defaultWeights 10 true 'X' 'O' 0 INT_MIN32 INT_MAX32
      boardFourO [(0, 0)] 0 0
      ((getTopNMoves boardFourO [(0, 0)] 'O' 10 defaultWeights).1.headD
        ⟨(0, 0), 0, 0, 0⟩)).2.2.2 (by decide) (by decide)⟩

/-! ### Claim C5 -/

theorem countConsecutive_single (x y dx dy : Int) (mark : Char)
    (h : ¬ ((x + dx, y + dy) : Pos) = (x, y)) :
    countConsecutive [((x, y), mark)] x y dx dy mark = 0 := by
  have hq : lookupCell [((x, y), mark)] (x + dx, y + dy) = none := by
    simp only [lookupCell, if_neg h]
  simp only [countConsecutive, List.length_cons, List.length_nil,
    countConsecutiveAux, hq]
  simp

theorem isWinningMove_empty (x y : Int) (mark : Char) :
    isWinningMove [] x y mark = false := by
  unfold isWinningMove
  have hb : placeMarkDirect (x, y) mark [] = [((x, y), mark)] := rfl
  rw [hb]
  unfold checkWinQuiet
  have hl : lookupCell [((x, y), mark)] (x, y) = some mark := by
    simp [lookupCell]
  rw [hl]
  unfold checkWinFromPosition
  simp only [dirList, List.any_cons, List.any_nil, Bool.or_false]
  rw [countConsecutive_single x y 1 0 mark (by simp only [Prod.mk.injEq]; omega),
    countConsecutive_single x y (-1) (-0) mark (by simp only [Prod.mk.injEq]; omega),
    countConsecutive_single x y 0 1 mark (by simp only [Prod.mk.injEq]; omega),
    countConsecutive_single x y (-0) (-1) mark (by simp only [Prod.mk.injEq]; omega),
    countConsecutive_single x y 1 1 mark (by simp only [Prod.mk.injEq]; omega),
    countConsecutive_single x y (-1) (-1) mark (by simp only [Prod.mk.injEq]; omega),
    countConsecutive_single x y 1 (-1) mark (by simp only [Prod.mk.injEq]; omega),
    countConsecutive_single x y (-1) (- -1) mark (by simp only [Prod.mk.injEq]; omega)]
  simp

theorem pickMove_mem (l : List Pos) (k : Nat) (h : l ≠ []) : pickMove l k ∈ l := by
  have hlen : 0 < l.length := List.length_pos.mpr h
  have hk : k % l.length < l.length := Nat.mod_lt _ hlen
  unfold pickMove
  rw [List.getD_eq_getElem l (0, 0) hk]
  exact List.getElem_mem hk

/-- C5.  Win-before-block priority: whenever some candidate frontier cell
played by the mover completes five-in-a-row, `findBestMove` returns one of
those winning cells — for every random draw — and hence never a merely
blocking cell. -/
theorem claim_C5_win_priority (w : EvaluationWeights) (searchDepth topn : Nat)
    (useAB : Bool) (avail : MoveSet) (b : Board) (playerMark : Char)
    (lastMove : Option Pos) (k1 k2 k3 : Nat)
    (hW : (candidateMoves avail b lastMove).filter
        (fun m => isWinningMove b m.1 m.2 playerMark) ≠ []) :
    findBestMove w searchDepth topn useAB avail b playerMark lastMove k1 k2 k3 ∈
      (candidateMoves avail b lastMove).filter
        (fun m => isWinningMove b m.1 m.2 playerMark) := by
  have hb : ¬ b = [] := by
    intro he
    apply hW
    subst he
    refine List.filter_eq_nil_iff.mpr ?_
    intro m _
    simp [isWinningMove_empty]
  have hmv : ¬ candidateMoves avail b lastMove = [] := by
    intro he
    apply hW
    rw [he]
    rfl
  rw [findBestMove, if_neg hb]
  simp only [if_neg hmv, if_pos hW]
  exact pickMove_mem _ k1 hW

/-- Witness for C5 on `boardC5`: the returned move is a winning cell. -/
theorem claim_C5_witness :
    (candidateMoves [] boardC5 none).filter
        (fun m => isWinningMove boardC5 m.1 m.2 'X') ≠ [] ∧
    findBestMove defaultWeights 2 10 true [] boardC5 'X' none 0 0 0 ∈
      (candidateMoves [] boardC5 none).filter
        (fun m => isWinningMove boardC5 m.1 m.2 'X') :=
  ⟨by decide,
   claim_C5_win_priority defaultWeights 2 10 true [] boardC5 'X' none 0 0 0
     (by decide)⟩

/-! ### Claim C6 -/

/-- C6 (failing-input theorem).  In every game `playSilentGame` drives —
for BOTH values of `player1First`, in particular the odd-indexed games of a
matchup where `runTournament` passes `player1First = false` — the first
move of the transcript is made by candidate 1's agent.  `player1First` only
swaps the marks, so the alternation the claim (and the code's own comment
"alternating who goes first") describes never happens: first-move advantage
stays with candidate `i` for the whole matchup. -/
theorem claim_C6_first_mover (choose1 choose2 : Agent) (m : Nat)
    (player1First : Bool) :
    ((playSilentGame choose1 choose2 (m + 1) player1First).2.map
      (fun e => e.1)).head? = some 1 := by
  cases m with
  | zero =>
    simp only [playSilentGame, gameLoop]
    repeat' split
    all_goals simp
  | succ k =>
    simp only [playSilentGame, gameLoop]
    repeat' split
    all_goals simp

end InfiniTTT
